import Mathlib

/-!
# Verification of the stattest Wilcoxon signed-rank core

Shallow embedding of the paired Wilcoxon signed-rank subsystem of the
`stattest` Rust crate: the `partitions` counting function and the exact
CDF of the W statistic (`src/distribution/signed_rank.rs`), the
`SignedRank` constructor and its normal-approximation branch, the tie
resolving rank iterator (`src/statistics/ranks.rs`), the paired test
pipeline (`src/test/wilcoxon_w.rs`) and the quantization trait
(`src/traits/quantization.rs`).

Modelling conventions: `f64` arithmetic on dyadic/rational data is
modelled by exact `ℚ` arithmetic; the standard normal CDF supplied by the
`statrs` dependency is modelled as the integral of the Gaussian density;
Rust's saturating float-to-integer cast is modelled by truncation toward
zero followed by clamping to the machine-integer range; panics
(`assert_eq!` and friends) are modelled by an explicit `panic` outcome.
-/

namespace Stattest

/-! ## `partitions` (src/distribution/signed_rank.rs:89-99)

The Rust function recurses with the first argument strictly decreasing.
We realise it structurally with an explicit fuel argument (`partitionsF`)
and define `partitions` with the fuel `number + 1` that the recursion
depth never exceeds; `partitionsF_congr` below proves any fuel of
at least `number + 1` gives the same value, and `partitions_eq` recovers
the Rust defining equations verbatim. -/

def partitionsF : ℕ → ℕ → ℕ → ℕ → ℕ
  | 0, _, _, _ => 0
  | fuel + 1, number, parts, size =>
    if number = parts then 1
    else if number = 0 ∨ parts = 0 ∨ size = 0 then 0
    else ((List.range' 1 (min number size)).map fun highest_part =>
      partitionsF fuel (number - highest_part) (parts - 1) highest_part).sum

/-- `partitions(number, parts, size)` from src/distribution/signed_rank.rs. -/
def partitions (number parts size : ℕ) : ℕ :=
  partitionsF (number + 1) number parts size

/-! ## Exact CDF of W (src/distribution/signed_rank.rs:112-132, Exact arm)

`r = x.ceil() as usize` (Rust's float-to-usize cast saturates negative
values to 0), `sum` starts at 1, and for each `n ∈ 1..=self.n` with
`C(n,2) ≤ r` the inner loop adds `partitions(i, n, self.n - n + 1)` for
`i ∈ n..=(r - C(n,2))`.  The result is `sum / 2^(self.n - 1)` where the
exponent is computed in `i32`, so for `self.n = 0` it is `2⁻¹`. -/

def exactCdfNum (n r : ℕ) : ℕ :=
  1 + ∑ k ∈ Finset.Icc 1 n,
    (if k.choose 2 ≤ r then
      ∑ i ∈ Finset.Icc k (r - k.choose 2), partitions i k (n - k + 1)
    else 0)

/-- The Exact-variant CDF, on exact rational inputs. -/
def exactCdfQ (n : ℕ) (x : ℚ) : ℚ :=
  (exactCdfNum n (Int.toNat ⌈x⌉) : ℚ) / 2 ^ ((n : ℤ) - 1)

/-! ## The `SignedRank` distribution value (src/distribution/signed_rank.rs:14-87)

`Approximation::Normal` carries the mean and variance of the underlying
`statrs` normal distribution (the stored `scale` is recovered in the CDF
below).  `SignedRank::approximate` fails exactly when `statrs`'s
`Normal::new(mean, var.sqrt())` rejects its standard deviation, i.e. when
`var ≤ 0`; `Option.none` models that error. -/

inductive Approximation
  | normal (mean var : ℚ)
  | exact
  deriving DecidableEq

structure SignedRank where
  approximation : Approximation
  n : ℕ
  deriving DecidableEq

def SignedRank.isNormal (d : SignedRank) : Bool :=
  match d.approximation with
  | .normal _ _ => true
  | .exact => false

def SignedRank.approximate (n non_zero : ℕ) : Option SignedRank :=
  if 0 < ((non_zero * (non_zero + 1) : ℕ) : ℚ) / 4 * ((2 * non_zero + 1 : ℕ) : ℚ) / 6 then
    some ⟨.normal (((non_zero * (non_zero + 1) : ℕ) : ℚ) / 4)
      (((non_zero * (non_zero + 1) : ℕ) : ℚ) / 4 * ((2 * non_zero + 1 : ℕ) : ℚ) / 6), n⟩
  else none

def SignedRank.exact (n : ℕ) : Option SignedRank :=
  some ⟨.exact, n⟩

def SignedRank.new (n non_zero : ℕ) : Option SignedRank :=
  if 20 ≤ non_zero then SignedRank.approximate n non_zero else SignedRank.exact n

/-! ## The tie-resolving rank iterator (src/statistics/ranks.rs:199-233)

Items are `(value, occurrences)` pairs (`WeightedTuple`); the normalizer
`f` is the identity for `Ranks::ranks` and the absolute value for the
Wilcoxon pipeline (its `WeightedTuple` `PartialEq` compares values only).
The iterator emits `(resolved_rank, item)` for every item; on meeting an
item whose normalized value differs from the previous item's it computes
`count = 1 + Σ` of the occurrences of the immediately following items
with the same normalized value (note: the current item always counts as
`1`, not as its own occurrence weight), sets
`resolved = (1 + count)/2 + index`, advances `index` by `count` and adds
`count³ - count` to the tie correction. -/

def sumOccPrefix (f : ℚ → ℚ) (nv : ℚ) : List (ℚ × ℕ) → ℕ
  | [] => 0
  | p :: t => if f p.1 = nv then p.2 + sumOccPrefix f nv t else 0

def resolveTiesAux (f : ℚ → ℚ) :
    List (ℚ × ℕ) → Option ℚ → ℕ → ℚ → ℕ → List (ℚ × ℚ × ℕ) × ℕ
  | [], _, _, _, tc => ([], tc)
  | p :: rest, cur, index, resolved, tc =>
    if cur = some (f p.1) then
      let r := resolveTiesAux f rest cur index resolved tc
      ((resolved, p.1, p.2) :: r.1, r.2)
    else
      let count := 1 + sumOccPrefix f (f p.1) rest
      let resolved2 := (1 + (count : ℚ)) / 2 + (index : ℚ)
      let r := resolveTiesAux f rest (some (f p.1)) (index + count) resolved2
        (tc + (count ^ 3 - count))
      ((resolved2, p.1, p.2) :: r.1, r.2)

/-- `ResolveTies` run from its initial state; returns the emitted
`(rank, value, occurrences)` triples and the final tie correction. -/
def resolveTies (f : ℚ → ℚ) (l : List (ℚ × ℕ)) : List (ℚ × ℚ × ℕ) × ℕ :=
  resolveTiesAux f l none 0 0 0

/-- Occurrence-weighted sum of the emitted ranks. -/
def rankSum (out : List (ℚ × ℚ × ℕ)) : ℚ :=
  (out.map fun q => q.1 * (q.2.2 : ℚ)).sum

/-- The accumulation loop of `WilcoxonWTest::_weighted_paired`
(src/test/wilcoxon_w.rs:352-370): negative values add `rank · w` to `W⁻`,
positive values add `rank · w` to `W⁺`, zero values add their occurrences
to `zeroes`.  Returns `(W⁻, W⁺, zeroes)`. -/
def wSums : List (ℚ × ℚ × ℕ) → ℚ × ℚ × ℕ
  | [] => (0, 0, 0)
  | q :: t =>
    let s := wSums t
    if q.2.1 < 0 then (s.1 + q.1 * (q.2.2 : ℚ), s.2.1, s.2.2)
    else if 0 < q.2.1 then (s.1, s.2.1 + q.1 * (q.2.2 : ℚ), s.2.2)
    else (s.1, s.2.1, s.2.2 + q.2.2)

/-- Paired differences `(x_i - y_i, w_i)` of `_weighted_paired`. -/
def wilcoxonDeltas (x y : List ℚ) (w : List ℕ) : List (ℚ × ℕ) :=
  ((x.zip y).zip w).map fun p => (p.1.1 - p.1.2, p.2)

/-- The comparison sort of the pipeline, keyed on `|Δ|`. -/
def sortByAbs (l : List (ℚ × ℕ)) : List (ℚ × ℕ) :=
  List.insertionSort (fun a b => |a.1| ≤ |b.1|) l

/-- `(W⁻, W⁺, zeroes)` computed by `WilcoxonWTest::paired` (unit
occurrence weights) before the distribution is consulted. -/
def pairedSums (x y : List ℚ) : ℚ × ℚ × ℕ :=
  (wSums (resolveTies (fun v => |v|)
    (sortByAbs (wilcoxonDeltas x y (List.replicate x.length 1)))).1)

/-- All occurrence weights equal to `1` (the `()`-weighted paths). -/
def UnitW (l : List (ℚ × ℕ)) : Prop := ∀ p ∈ l, p.2 = 1

/-- Triangular number `k (k + 1) / 2` as a rational. -/
def tri (k : ℕ) : ℚ := (k : ℚ) * ((k : ℚ) + 1) / 2

/-- The resolver state is fresh for the list: its head (if any) opens a
new tie group. -/
def Fresh (f : ℚ → ℚ) (cur : Option ℚ) : List (ℚ × ℕ) → Prop
  | [] => True
  | p :: _ => cur ≠ some (f p.1)

/-! ## The normal-approximation CDF (src/distribution/signed_rank.rs:112-132)

`statrs`'s `Normal::cdf` (an external dependency) is the mathematical
normal CDF `Φ((x - μ)/σ)`; we model `Φ` as the integral of the standard
Gaussian density.  The `Normal` arm of `SignedRank`'s `cdf` divides
`2 · Φ` by the `scale = Φ(rank_sum) - Φ(0)` stored by `approximate`
(src/distribution/signed_rank.rs:62-63, 115). -/

noncomputable def stdNormalCdf (x : ℝ) : ℝ :=
  ∫ t in Set.Iic x, ProbabilityTheory.gaussianPDFReal 0 1 t

noncomputable def SignedRank.cdf (d : SignedRank) (x : ℝ) : ℝ :=
  match d.approximation with
  | .normal mean var =>
    2 * stdNormalCdf ((x - (mean : ℝ)) / Real.sqrt (var : ℝ)) /
      (stdNormalCdf ((((d.n * (d.n + 1) : ℕ) : ℝ) / 2 - (mean : ℝ)) / Real.sqrt (var : ℝ)) -
        stdNormalCdf ((0 - (mean : ℝ)) / Real.sqrt (var : ℝ)))
  | .exact => ((exactCdfNum d.n (Int.toNat ⌈x⌉) : ℚ) : ℝ) / 2 ^ ((d.n : ℤ) - 1)

/-! ## The paired test pipeline (src/test/wilcoxon_w.rs:317-389)

`assert_eq!`/`assert_ne!` are compiled into both debug and release
builds; a failed assert is a `panic` outcome, not an error value.  The
only `Result` error the pipeline can produce is a propagated
distribution-constructor failure (`err`). -/

inductive TestOutcome
  | panic (msg : String)
  | err
  | ok (estimate : ℚ × ℚ) (effectSize : ℚ) (pValue : ℝ)

def TestOutcome.pValueOf : TestOutcome → Option ℝ
  | .ok _ _ p => some p
  | _ => none

def TestOutcome.isOk : TestOutcome → Bool
  | .ok _ _ _ => true
  | _ => false

/-- Modelled from the spec: the three-argument constructor
`SignedRank::new(n, zeros, C)` that `_weighted_paired` calls at
src/test/wilcoxon_w.rs:377 is not defined under src — the checked-in
signed_rank.rs has a two-argument `new(n, non_zero)`.  Spec §4.3: build
the Normal approximation when `zeros > 0` or `C > 0` or
`(n - zeros) ≥ 20`, with `n_eff = n - zeros`, `μ = n_eff (n_eff + 1)/4`
and `σ² = μ (2 n_eff + 1)/6 - C/48`, failing with `BadDistribution` when
`σ² ≤ 0`; otherwise build the Exact distribution on `n`. -/
def SignedRank.newSpec (n zeros c : ℕ) : Option SignedRank :=
  if 0 < zeros ∨ 0 < c ∨ 20 ≤ n - zeros then
    if 0 < ((n - zeros : ℕ) : ℚ) * ((n - zeros : ℕ) + 1) / 4 *
        (2 * ((n - zeros : ℕ) : ℚ) + 1) / 6 - (c : ℚ) / 48 then
      some ⟨.normal (((n - zeros : ℕ) : ℚ) * ((n - zeros : ℕ) + 1) / 4)
        (((n - zeros : ℕ) : ℚ) * ((n - zeros : ℕ) + 1) / 4 *
          (2 * ((n - zeros : ℕ) : ℚ) + 1) / 6 - (c : ℚ) / 48), n⟩
    else none
  else SignedRank.exact n

/-- `WilcoxonWTest::_weighted_paired`: validate lengths (assert), build
the `(Δ, w)` vector, sort by `|Δ|`, resolve ties, accumulate
`(W⁻, W⁺, zeroes)`, consult `SignedRank::new(n, zeroes, C)`, and report
`(W⁻, W⁺)`, `effect_size = min(W⁻,W⁺)/(n (n + 1)/2)` and
`p_value = cdf(min(W⁻,W⁺))`.  There is no emptiness check on this path:
`n = 0` flows through to a result. -/
noncomputable def weightedPaired (x y : List ℚ) (w : List ℕ) : TestOutcome :=
  if x.length ≠ y.length then .panic "Samples must have the same length"
  else
    let r := resolveTies (fun v => |v|) (sortByAbs (wilcoxonDeltas x y w))
    let s := wSums r.1
    let estimate_small := if s.1 < s.2.1 then s.1 else s.2.1
    match SignedRank.newSpec x.length s.2.2 r.2 with
    | none => .err
    | some d =>
      .ok (s.1, s.2.1) (estimate_small / ((x.length : ℚ) * ((x.length : ℚ) + 1) / 2))
        (d.cdf ((estimate_small : ℚ) : ℝ))

/-- `WilcoxonWTest::paired`: unit occurrence weights. -/
noncomputable def wilcoxonPaired (x y : List ℚ) : TestOutcome :=
  weightedPaired x y (List.replicate x.length 1)

/-! ## Counting semantics of `partitions`

Independent specification of "number of ways to write `n` as a sum of
exactly `k` positive integers each ≤ `s`": enumerate every `k`-tuple
over `{1, …, s}` and count the nonincreasing representatives with the
required sum (one per multiset); `countDistinct` counts the claim's
distinct-part reading via subsets of `{1, …, s}`. -/

def tuples : ℕ → ℕ → List (List ℕ)
  | 0, _ => [[]]
  | k + 1, s => (List.range' 1 s).flatMap fun h => (tuples k s).map (h :: ·)

def countM (n k s : ℕ) : ℕ :=
  (tuples k s).countP fun l => decide (l.sum = n ∧ List.Pairwise (· ≥ ·) l)

def countDistinct (n k s : ℕ) : ℕ :=
  ((Finset.Icc 1 s).powerset.filter fun t => t.card = k ∧ t.sum id = n).card

/-! ## Quantization (src/traits/quantization.rs:68-89 and
src/test/wilcoxon_w.rs:291-315)

`quantize(v, factor)` computes `(v / factor) * Q::UPPER_BOUND` and
converts with a float-to-integer `as` cast — truncation toward zero,
saturating at the *machine* bounds of the target (for `i8`:
`[-128, 127]`; note `Bounded::LOWER_BOUND` for `i8` is `-127`).  The
quantized pipeline scans `max = max |xᵢ - yᵢ|` and then passes
`reciprocal = ONE / max` — not `max` — as the factor. -/

def ratTrunc (q : ℚ) : ℤ := if 0 ≤ q then ⌊q⌋ else ⌈q⌉

def satCastI8 (q : ℚ) : ℤ := max (-128) (min 127 (ratTrunc q))

def quantizeI8 (v factor : ℚ) : ℤ :=
  if v = 0 then 0 else satCastI8 (v / factor * 127)

def maxAbsDelta (x y : List ℚ) : ℚ :=
  ((x.zip y).map fun p => |p.1 - p.2|).foldl (fun mx d => if mx < d then d else mx) 0

def quantizedFactor (x y : List ℚ) : ℚ := 1 / maxAbsDelta x y

theorem partitionsF_congr : ∀ (f₁ f₂ number parts size : ℕ),
    number < f₁ → number < f₂ →
    partitionsF f₁ number parts size = partitionsF f₂ number parts size := by
  intro f₁ f₂ number
  induction number using Nat.strong_induction_on generalizing f₁ f₂ with
  | _ number ih =>
    intro parts size h₁ h₂
    obtain ⟨a, rfl⟩ : ∃ a, f₁ = a + 1 := ⟨f₁ - 1, by omega⟩
    obtain ⟨b, rfl⟩ : ∃ b, f₂ = b + 1 := ⟨f₂ - 1, by omega⟩
    simp only [partitionsF]
    rcases eq_or_ne number parts with h | h
    · simp [h]
    rcases eq_or_ne number 0 with h0 | h0
    · simp [h, h0]
    refine if_congr Iff.rfl rfl (if_congr Iff.rfl rfl ?_)
    refine congrArg List.sum (List.map_congr_left fun x hx => ?_)
    have hx1 := List.mem_range'_1.mp hx
    exact ih (number - x) (by omega) a b (parts - 1) x (by omega) (by omega)

/-- The Rust defining equation of `partitions`, recovered for the fuel
realisation. -/
theorem partitions_eq (number parts size : ℕ) :
    partitions number parts size =
      if number = parts then 1
      else if number = 0 ∨ parts = 0 ∨ size = 0 then 0
      else ((List.range' 1 (min number size)).map fun highest_part =>
        partitions (number - highest_part) (parts - 1) highest_part).sum := by
  show partitionsF (number + 1) number parts size = _
  simp only [partitionsF]
  rcases eq_or_ne number parts with h | h
  · simp [h]
  rcases eq_or_ne number 0 with h0 | h0
  · simp [h, h0]
  refine if_congr Iff.rfl rfl (if_congr Iff.rfl rfl
    (congrArg List.sum (List.map_congr_left fun x hx => ?_)))
  have hx1 := List.mem_range'_1.mp hx
  exact partitionsF_congr _ _ _ _ _ (by omega) (by omega)

lemma exactCdfQ_natCast (n r : ℕ) :
    exactCdfQ n (r : ℚ) = (exactCdfNum n r : ℚ) / 2 ^ ((n : ℤ) - 1) := by
  simp [exactCdfQ]

/-! ### Claim theorems about the constructor and the Exact CDF -/

/-- C1, counterexample.  The source constructor
`SignedRank::new(n, non_zero)` takes no tie-correction argument and
selects the approximation solely by `non_zero >= 20`.  At `n = 25` with
second argument `10` the claim demands the Normal approximation (its
`zeros` reading of the second argument is positive, and so is `n` minus
the argument under the `non_zero` reading), yet the code builds the Exact
variant. -/
theorem C1_new_counterexample :
    (0 < 10 ∧ 0 < 25 - 10 ∧ 25 - 10 < 20) ∧
      SignedRank.new 25 10 = some ⟨.exact, 25⟩ ∧
      (SignedRank.isNormal ⟨.exact, 25⟩) = false := by
  refine ⟨by decide, ?_, rfl⟩
  decide

/-- C1, amended.  `SignedRank::new(n, non_zero)` never fails and builds
the Normal approximation if and only if `non_zero ≥ 20`, with mean
`non_zero (non_zero + 1) / 4` and variance `mean (2 non_zero + 1) / 6`
(no `C/48` subtraction, hence no `BadDistribution` failure); otherwise it
builds the Exact variant parameterized by `n`. -/
theorem C1_new_amended (n non_zero : ℕ) :
    SignedRank.new n non_zero =
      some
        (if 20 ≤ non_zero then
          ⟨.normal ((non_zero : ℚ) * (non_zero + 1) / 4)
            ((non_zero : ℚ) * (non_zero + 1) / 4 * (2 * non_zero + 1) / 6), n⟩
        else ⟨.exact, n⟩) := by
  unfold SignedRank.new SignedRank.approximate SignedRank.exact
  by_cases h20 : 20 ≤ non_zero
  · have hpos : (0 : ℚ) < ((non_zero * (non_zero + 1) : ℕ) : ℚ) / 4 *
        ((2 * non_zero + 1 : ℕ) : ℚ) / 6 := by
      have h1 : (0 : ℚ) < ((non_zero * (non_zero + 1) : ℕ) : ℚ) := by
        have hnz : 0 < non_zero := by omega
        have : 0 < non_zero * (non_zero + 1) := by positivity
        exact_mod_cast this
      have h2 : (0 : ℚ) < ((2 * non_zero + 1 : ℕ) : ℚ) := by
        exact_mod_cast Nat.succ_pos _
      positivity
    rw [if_pos h20, if_pos h20, if_pos hpos]
    have hm : ((non_zero * (non_zero + 1) : ℕ) : ℚ) / 4 =
        (non_zero : ℚ) * (non_zero + 1) / 4 := by push_cast; ring
    have hv : ((non_zero * (non_zero + 1) : ℕ) : ℚ) / 4 *
          ((2 * non_zero + 1 : ℕ) : ℚ) / 6 =
        (non_zero : ℚ) * (non_zero + 1) / 4 * (2 * non_zero + 1) / 6 := by
      push_cast; ring
    rw [hv, hm]
  · rw [if_neg h20, if_neg h20]

/-- C4, counterexample.  At `n = 3` the top of the support is
`n (n + 1) / 2 = 6`, but the Exact CDF evaluates there to `2`, not `1`:
the code divides the full count `2 ^ n` by `2 ^ (n - 1)`. -/
theorem C4_exact_top_counterexample : exactCdfQ 3 6 ≠ 1 := by
  have h : exactCdfQ 3 ((6 : ℕ) : ℚ) = (exactCdfNum 3 6 : ℚ) / 2 ^ ((3 : ℤ) - 1) :=
    exactCdfQ_natCast 3 6
  have h8 : exactCdfNum 3 6 = 8 := by decide
  rw [show (6 : ℚ) = ((6 : ℕ) : ℚ) by norm_num, h, h8]
  norm_num

lemma exactCdfNum_mono (n : ℕ) {r r' : ℕ} (h : r ≤ r') :
    exactCdfNum n r ≤ exactCdfNum n r' := by
  unfold exactCdfNum
  refine Nat.add_le_add_left (Finset.sum_le_sum fun k _ => ?_) 1
  by_cases hc : k.choose 2 ≤ r
  · rw [if_pos hc, if_pos (hc.trans h)]
    exact Finset.sum_le_sum_of_subset
      (Finset.Icc_subset_Icc_right (Nat.sub_le_sub_right h _))
  · rw [if_neg hc]
    exact Nat.zero_le _

lemma exactCdfNum_zero (n : ℕ) : exactCdfNum n 0 = 1 := by
  unfold exactCdfNum
  have hz : (∑ k ∈ Finset.Icc 1 n,
      if k.choose 2 ≤ 0 then
        ∑ i ∈ Finset.Icc k (0 - k.choose 2), partitions i k (n - k + 1)
      else 0) = 0 := by
    refine Finset.sum_eq_zero fun k hk => ?_
    simp only [Finset.mem_Icc] at hk
    have he : Finset.Icc k (0 - k.choose 2) = ∅ := Finset.Icc_eq_empty (by omega)
    rw [he]
    simp
  rw [hz]

/-- C4, amended.  The Exact CDF is monotone nondecreasing, constant on
each interval `(m - 1, m]` (hence left- rather than right-continuous at
its jumps), equal to the constant `2 ^ (1 - n)` on the whole lower tail
`w ≤ 0` (so it does not tend to `0` as `w → -∞`), and at the top of the
support it reaches `2`, not `1` (exhibited at `n = 3`). -/
theorem C4_exact_cdf_amended :
    (∀ (n : ℕ) (x y : ℚ), x ≤ y → exactCdfQ n x ≤ exactCdfQ n y) ∧
    (∀ (n : ℕ) (x : ℚ) (m : ℤ), (m : ℚ) - 1 < x → x ≤ (m : ℚ) →
      exactCdfQ n x = exactCdfQ n (m : ℚ)) ∧
    (∀ (n : ℕ) (x : ℚ), x ≤ 0 → exactCdfQ n x = 2 ^ (1 - (n : ℤ))) ∧
    exactCdfQ 3 6 = 2 := by
  refine ⟨?_, ?_, ?_, ?_⟩
  · intro n x y hxy
    unfold exactCdfQ
    have hpow : (0 : ℚ) < 2 ^ ((n : ℤ) - 1) := zpow_pos (by norm_num) _
    rw [div_le_div_iff_of_pos_right hpow]
    exact_mod_cast exactCdfNum_mono n
      (Int.toNat_le_toNat (Int.ceil_le_ceil hxy))
  · intro n x m h1 h2
    unfold exactCdfQ
    have hx : ⌈x⌉ = m := Int.ceil_eq_iff.mpr ⟨h1, h2⟩
    have hm : ⌈(m : ℚ)⌉ = m := Int.ceil_intCast m
    rw [hx, hm]
  · intro n x hx
    unfold exactCdfQ
    have hc : ⌈x⌉ ≤ 0 := by
      have h0 : x ≤ ((0 : ℤ) : ℚ) := by exact_mod_cast hx
      exact Int.ceil_le.mpr h0
    rw [Int.toNat_of_nonpos hc, exactCdfNum_zero]
    rw [Nat.cast_one, one_div, ← zpow_neg]
    congr 1
    ring
  · have h : exactCdfQ 3 ((6 : ℕ) : ℚ) = (exactCdfNum 3 6 : ℚ) / 2 ^ ((3 : ℤ) - 1) :=
      exactCdfQ_natCast 3 6
    have h8 : exactCdfNum 3 6 = 8 := by decide
    rw [show (6 : ℚ) = ((6 : ℕ) : ℚ) by norm_num, h, h8]
    norm_num

/-- Witness for `C4_exact_cdf_amended` at concrete inputs. -/
theorem C4_exact_cdf_amended_witness :
    exactCdfQ 5 1 ≤ exactCdfQ 5 2 ∧
      exactCdfQ 5 (3 / 2) = exactCdfQ 5 ((2 : ℤ) : ℚ) ∧
      exactCdfQ 5 (-1) = 2 ^ (1 - (5 : ℤ)) :=
  ⟨C4_exact_cdf_amended.1 5 1 2 (by norm_num),
   C4_exact_cdf_amended.2.1 5 (3 / 2) 2 (by norm_num) (by norm_num),
   C4_exact_cdf_amended.2.2.1 5 (-1) (by norm_num)⟩

/-! ### Rank-sum invariants of the tie resolver -/

lemma rankSum_nil : rankSum [] = 0 := rfl

lemma rankSum_cons (q : ℚ × ℚ × ℕ) (l : List (ℚ × ℚ × ℕ)) :
    rankSum (q :: l) = q.1 * (q.2.2 : ℚ) + rankSum l := by
  simp [rankSum]

lemma rankSum_append (u v : List (ℚ × ℚ × ℕ)) :
    rankSum (u ++ v) = rankSum u + rankSum v := by
  simp [rankSum]

lemma rankSum_map_const (res : ℚ) :
    ∀ a : List (ℚ × ℕ),
      rankSum (a.map fun p => (res, p.1, p.2)) = res * (((a.map Prod.snd).sum : ℕ) : ℚ)
  | [] => by simp [rankSum]
  | p :: a => by
    have ih := rankSum_map_const res a
    simp only [List.map_cons, rankSum_cons, ih, List.map_cons, List.sum_cons]
    push_cast
    ring

lemma unit_map_snd_sum :
    ∀ a : List (ℚ × ℕ), (∀ p ∈ a, p.2 = 1) → (a.map Prod.snd).sum = a.length
  | [] , _ => rfl
  | p :: a, h => by
    have hp : p.2 = 1 := h p (by simp)
    have ih := unit_map_snd_sum a fun q hq => h q (by simp [hq])
    simp [hp, ih]
    omega

lemma resolveTiesAux_matching (f : ℚ → ℚ) (nv : ℚ) :
    ∀ (a b : List (ℚ × ℕ)) (idx : ℕ) (res : ℚ) (tc : ℕ),
      (∀ p ∈ a, f p.1 = nv) →
      resolveTiesAux f (a ++ b) (some nv) idx res tc =
        ((a.map fun p => (res, p.1, p.2)) ++
            (resolveTiesAux f b (some nv) idx res tc).1,
          (resolveTiesAux f b (some nv) idx res tc).2)
  | [], b, idx, res, tc, _ => by simp
  | p :: a, b, idx, res, tc, h => by
    have hp : f p.1 = nv := h p (by simp)
    have ih := resolveTiesAux_matching f nv a b idx res tc
      (fun q hq => h q (by simp [hq]))
    simp [resolveTiesAux, hp, ih]

lemma sumOccPrefix_append (f : ℚ → ℚ) (nv : ℚ) :
    ∀ (a b : List (ℚ × ℕ)), (∀ p ∈ a, f p.1 = nv) → Fresh f (some nv) b →
      sumOccPrefix f nv (a ++ b) = (a.map Prod.snd).sum
  | [], b, _, hb => by
    cases b with
    | nil => rfl
    | cons q b =>
      have hb' : some nv ≠ some (f q.1) := hb
      have hq : ¬ f q.1 = nv := by
        intro hcon
        exact hb' (by rw [hcon])
      simp [sumOccPrefix, hq]
  | p :: a, b, h, hb => by
    have hp : f p.1 = nv := h p (by simp)
    have ih := sumOccPrefix_append f nv a b (fun q hq => h q (by simp [hq])) hb
    simp [sumOccPrefix, hp, ih]

lemma mem_takeWhile_pred {α : Type} (p : α → Bool) :
    ∀ (l : List α) (x : α), x ∈ l.takeWhile p → p x = true
  | [], x, h => by simp [List.takeWhile] at h
  | a :: l, x, h => by
    by_cases hpa : p a = true
    · rw [List.takeWhile_cons_of_pos hpa] at h
      rcases List.mem_cons.mp h with rfl | h2
      · exact hpa
      · exact mem_takeWhile_pred p l x h2
    · rw [List.takeWhile_cons_of_neg hpa] at h
      simp at h

lemma dropWhile_head_not {α : Type} (p : α → Bool) :
    ∀ (l : List α) (x : α) (t : List α), l.dropWhile p = x :: t → p x = false
  | [], x, t, h => by simp at h
  | a :: l, x, t, h => by
    by_cases ha : p a = true
    · rw [List.dropWhile_cons_of_pos ha] at h
      exact dropWhile_head_not p l x t h
    · rw [List.dropWhile_cons_of_neg ha] at h
      cases h
      simpa using ha

/-- Core rank-sum invariant: started fresh at `index = idx`, the resolver
emits, over a unit-weight list of length `m`, ranks summing to
`tri (idx + m) - tri idx` — regardless of the order or grouping of the
values. -/
lemma rankSum_resolveTiesAux (f : ℚ → ℚ) :
    ∀ (N : ℕ) (l : List (ℚ × ℕ)), l.length ≤ N → UnitW l →
      ∀ (cur : Option ℚ) (idx : ℕ) (res : ℚ) (tc : ℕ), Fresh f cur l →
        rankSum (resolveTiesAux f l cur idx res tc).1 =
          tri (idx + l.length) - tri idx := by
  intro N
  induction N with
  | zero =>
    intro l hl _ cur idx res tc _
    have : l = [] := List.length_eq_zero.mp (Nat.le_zero.mp hl)
    subst this
    simp [resolveTiesAux, rankSum_nil, tri]
  | succ N ih =>
    intro l hl hu cur idx res tc hf
    cases l with
    | nil => simp [resolveTiesAux, rankSum_nil, tri]
    | cons p rest =>
      have hc : ¬ cur = some (f p.1) := hf
      have hadef : rest.takeWhile (fun q => decide (f q.1 = f p.1)) =
          rest.takeWhile (fun q => decide (f q.1 = f p.1)) := rfl
      generalize hA : rest.takeWhile (fun q => decide (f q.1 = f p.1)) = a at hadef
      generalize hB : rest.dropWhile (fun q => decide (f q.1 = f p.1)) = b
      have hab : a ++ b = rest := by
        rw [← hA, ← hB]
        exact List.takeWhile_append_dropWhile _ _
      have ha : ∀ q ∈ a, f q.1 = f p.1 := by
        intro q hq
        rw [← hA] at hq
        exact of_decide_eq_true (mem_takeWhile_pred _ rest q hq)
      have hau : ∀ q ∈ a, q.2 = 1 := by
        intro q hq
        refine hu q ?_
        simp only [List.mem_cons]
        exact Or.inr (hab ▸ List.mem_append_left _ hq)
      have hbf : Fresh f (some (f p.1)) b := by
        cases hbb : b with
        | nil => trivial
        | cons q t =>
          have hd := dropWhile_head_not _ rest q t (by rw [hB, hbb])
          simp only [decide_eq_false_iff_not] at hd
          show some (f p.1) ≠ some (f q.1)
          intro hcon
          exact hd (by injection hcon with h; exact h.symm)
      have hsum : sumOccPrefix f (f p.1) rest = a.length := by
        rw [← hab, sumOccPrefix_append f (f p.1) a b ha hbf, unit_map_snd_sum a hau]
      simp only [resolveTiesAux, if_neg hc, hsum]
      rw [← hab]
      rw [resolveTiesAux_matching f (f p.1) a b (idx + (1 + a.length))
        ((1 + ((1 + a.length : ℕ) : ℚ)) / 2 + (idx : ℚ))
        (tc + ((1 + a.length) ^ 3 - (1 + a.length))) ha]
      have hbl : b.length ≤ N := by
        have h1 : a.length + b.length = rest.length := by
          rw [← List.length_append, hab]
        have h2 : (p :: rest).length = rest.length + 1 := by simp
        omega
      have hbu : UnitW b := by
        intro q hq
        refine hu q ?_
        simp only [List.mem_cons]
        exact Or.inr (hab ▸ List.mem_append_right _ hq)
      have hib := ih b hbl hbu (some (f p.1)) (idx + (1 + a.length))
        ((1 + ((1 + a.length : ℕ) : ℚ)) / 2 + (idx : ℚ))
        (tc + ((1 + a.length) ^ 3 - (1 + a.length))) hbf
      rw [rankSum_cons, rankSum_append, rankSum_map_const, hib,
        unit_map_snd_sum a hau]
      have hp1 : p.2 = 1 := hu p (by simp)
      rw [hp1]
      simp only [List.length_cons, List.length_append]
      unfold tri
      push_cast
      ring

lemma resolveTiesAux_snd_values (f : ℚ → ℚ) :
    ∀ (l : List (ℚ × ℕ)) (cur : Option ℚ) (idx : ℕ) (res : ℚ) (tc : ℕ),
      (resolveTiesAux f l cur idx res tc).1.map Prod.snd = l
  | [], _, _, _, _ => rfl
  | p :: rest, cur, idx, res, tc => by
    by_cases hc : cur = some (f p.1)
    · simp only [resolveTiesAux, if_pos hc, List.map_cons]
      rw [resolveTiesAux_snd_values f rest]
    · simp only [resolveTiesAux, if_neg hc, List.map_cons]
      rw [resolveTiesAux_snd_values f rest]

lemma wSums_append :
    ∀ u v : List (ℚ × ℚ × ℕ),
      wSums (u ++ v) = ((wSums u).1 + (wSums v).1, (wSums u).2.1 + (wSums v).2.1,
        (wSums u).2.2 + (wSums v).2.2)
  | [], v => by simp [wSums]
  | q :: u, v => by
    have ih := wSums_append u v
    show wSums (q :: (u ++ v)) = _
    simp only [wSums]
    rw [ih]
    split_ifs <;> refine Prod.ext ?_ (Prod.ext ?_ ?_) <;> simp <;> ring

lemma wSums_zero_values :
    ∀ out : List (ℚ × ℚ × ℕ), (∀ q ∈ out, q.2.1 = 0) →
      wSums out = (0, 0, (out.map fun q => q.2.2).sum)
  | [], _ => rfl
  | q :: out, h => by
    have hq : q.2.1 = 0 := h q (by simp)
    have ih := wSums_zero_values out fun r hr => h r (by simp [hr])
    simp only [wSums, ih, hq, List.map_cons, List.sum_cons]
    norm_num
    omega

lemma wSums_nonzero_values :
    ∀ out : List (ℚ × ℚ × ℕ), (∀ q ∈ out, q.2.1 ≠ 0) →
      (wSums out).1 + (wSums out).2.1 = rankSum out ∧ (wSums out).2.2 = 0
  | [], _ => by simp [wSums, rankSum]
  | q :: out, h => by
    have hq : q.2.1 ≠ 0 := h q (by simp)
    have ih := wSums_nonzero_values out fun r hr => h r (by simp [hr])
    rcases lt_trichotomy q.2.1 0 with hlt | heq | hgt
    · simp only [wSums, if_pos hlt, rankSum_cons]
      exact ⟨by rw [← ih.1]; ring, ih.2⟩
    · exact absurd heq hq
    · simp only [wSums, if_neg (not_lt.mpr hgt.le), if_pos hgt, rankSum_cons]
      exact ⟨by rw [← ih.1]; ring, ih.2⟩

/-- The claim-relevant consequence for a unit-weight list already sorted
by `|Δ|`: the zero differences consume the first
`z = countP (Δ = 0)` ranks (they are *not* excluded from the rank
assignment), so `W⁻ + W⁺ = tri n - tri z` and the `zeroes` counter
equals `z`. -/
lemma wSums_resolveTies_sorted (l : List (ℚ × ℕ)) (hu : UnitW l)
    (hs : List.Pairwise (fun a b : ℚ × ℕ => |a.1| ≤ |b.1|) l) :
    (wSums (resolveTies (fun v => |v|) l).1).1 +
        (wSums (resolveTies (fun v => |v|) l).1).2.1 =
      tri l.length - tri (l.countP fun p => decide (p.1 = 0)) ∧
      (wSums (resolveTies (fun v => |v|) l).1).2.2 =
        l.countP fun p => decide (p.1 = 0) := by
  cases l with
  | nil => simp [resolveTies, resolveTiesAux, wSums, tri]
  | cons p rest =>
    obtain ⟨pv, pw⟩ := p
    by_cases hz : pv = 0
    · subst hz
      have hpw : pw = 1 := hu (0, pw) (by simp)
      subst hpw
      -- decompose `rest` into the zero prefix `a` and the nonzero tail `b`
      have hA : rest.takeWhile (fun q => decide (q.1 = (0 : ℚ))) =
          rest.takeWhile (fun q => decide (q.1 = (0 : ℚ))) := rfl
      generalize ha0 : rest.takeWhile (fun q => decide (q.1 = (0 : ℚ))) = a at hA
      generalize hb0 : rest.dropWhile (fun q => decide (q.1 = (0 : ℚ))) = b
      have hab : a ++ b = rest := by
        rw [← ha0, ← hb0]
        exact List.takeWhile_append_dropWhile _ _
      have haz : ∀ q ∈ a, q.1 = 0 := by
        intro q hq
        rw [← ha0] at hq
        exact of_decide_eq_true (mem_takeWhile_pred _ rest q hq)
      have hbnz : ∀ q ∈ b, q.1 ≠ 0 := by
        intro q hq
        cases hbb : b with
        | nil => rw [hbb] at hq; simp at hq
        | cons b0 t =>
          have hd : ¬ b0.1 = 0 := by
            have := dropWhile_head_not _ rest b0 t (by rw [hb0, hbb])
            simpa using this
          rw [hbb] at hq
          rcases List.mem_cons.mp hq with rfl | hqt
          · exact hd
          · -- later elements of `b` cannot be zero by sortedness
            intro hq0
            have hpb : List.Pairwise (fun a b : ℚ × ℕ => |a.1| ≤ |b.1|) b := by
              refine List.Pairwise.sublist ?_ (List.Pairwise.of_cons hs)
              rw [← hb0]
              exact List.dropWhile_sublist _
            have hrel : |b0.1| ≤ |q.1| := by
              rw [hbb] at hpb
              exact (List.pairwise_cons.mp hpb).1 q hqt
            rw [hq0, abs_zero] at hrel
            exact hd (abs_eq_zero.mp (le_antisymm hrel (abs_nonneg _)))
      have hau : ∀ q ∈ a, q.2 = 1 := fun q hq =>
        hu q (by simp only [List.mem_cons]; exact Or.inr (hab ▸ List.mem_append_left _ hq))
      have hbu : UnitW b := fun q hq =>
        hu q (by simp only [List.mem_cons]; exact Or.inr (hab ▸ List.mem_append_right _ hq))
      -- the resolver groups by `|·|`; the zero prefix is exactly the `|·| = 0` group
      have haz' : ∀ q ∈ a, |q.1| = |(0 : ℚ)| := by
        intro q hq
        rw [haz q hq, abs_zero]
      have hbf : Fresh (fun v => |v|) (some |(0 : ℚ)|) b := by
        cases hbb : b with
        | nil => trivial
        | cons b0 t =>
          show some |(0 : ℚ)| ≠ some |b0.1|
          intro hcon
          refine hbnz b0 (by rw [hbb]; simp) ?_
          have : |(0 : ℚ)| = |b0.1| := by injection hcon
          rw [abs_zero] at this
          exact abs_eq_zero.mp this.symm
      have hsum : sumOccPrefix (fun v => |v|) |(0 : ℚ)| rest = a.length := by
        rw [← hab, sumOccPrefix_append _ _ a b haz' hbf, unit_map_snd_sum a hau]
      have hc0 : ¬ (none : Option ℚ) = some |(0 : ℚ)| := by simp
      rw [resolveTies]
      simp only [resolveTiesAux, if_neg hc0, hsum]
      rw [← hab]
      rw [resolveTiesAux_matching (fun v => |v|) |(0 : ℚ)| a b (0 + (1 + a.length))
        ((1 + ((1 + a.length : ℕ) : ℚ)) / 2 + ((0 : ℕ) : ℚ))
        (0 + ((1 + a.length) ^ 3 - (1 + a.length))) haz']
      -- split the output into the zero block and the nonzero tail output
      rw [← List.cons_append, wSums_append]
      set res2 := (1 + ((1 + a.length : ℕ) : ℚ)) / 2 + ((0 : ℕ) : ℚ) with hres2
      have hzeroblock :
          wSums ((res2, (0 : ℚ), 1) :: (a.map fun p => (res2, p.1, p.2))) =
            (0, 0, ((((res2, (0 : ℚ), 1) :: (a.map fun p => (res2, p.1, p.2))).map
              fun q => q.2.2).sum)) := by
        refine wSums_zero_values _ ?_
        intro q hq
        rcases List.mem_cons.mp hq with rfl | hq2
        · rfl
        · obtain ⟨r, hr, rfl⟩ := List.mem_map.mp hq2
          exact haz r hr
      have hweights :
          ((((res2, (0 : ℚ), 1) :: (a.map fun p => (res2, p.1, p.2))).map
            fun q => q.2.2).sum) = 1 + a.length := by
        simp only [List.map_cons, List.map_map, List.sum_cons]
        have : (a.map ((fun q : ℚ × ℚ × ℕ => q.2.2) ∘ fun p : ℚ × ℕ => (res2, p.1, p.2))).sum
            = (a.map Prod.snd).sum := by
          congr 1
        rw [this, unit_map_snd_sum a hau]
      have hout_b := resolveTiesAux_snd_values (fun v => |v|) b (some |(0 : ℚ)|)
        (0 + (1 + a.length)) res2 (0 + ((1 + a.length) ^ 3 - (1 + a.length)))
      have hbvals : ∀ q ∈ (resolveTiesAux (fun v => |v|) b (some |(0 : ℚ)|)
          (0 + (1 + a.length)) res2 (0 + ((1 + a.length) ^ 3 - (1 + a.length)))).1,
          q.2.1 ≠ 0 := by
        intro q hq
        have hq2 : q.2 ∈ b := by
          rw [← hout_b]
          exact List.mem_map_of_mem Prod.snd hq
        exact hbnz q.2 hq2
      have hnzb := wSums_nonzero_values _ hbvals
      have hrsb := rankSum_resolveTiesAux (fun v => |v|) b.length b le_rfl hbu
        (some |(0 : ℚ)|) (0 + (1 + a.length)) res2
        (0 + ((1 + a.length) ^ 3 - (1 + a.length))) hbf
      have hcount2 : (((0 : ℚ), 1) :: (a ++ b) : List (ℚ × ℕ)).countP
          (fun p => decide (p.1 = 0)) = 1 + a.length := by
        rw [List.countP_cons, List.countP_append]
        have hca : a.countP (fun p => decide (p.1 = 0)) = a.length := by
          rw [List.countP_eq_length]
          intro q hq
          simpa using haz q hq
        have hcb : b.countP (fun p => decide (p.1 = 0)) = 0 := by
          rw [List.countP_eq_zero]
          intro q hq
          simpa using hbnz q hq
        rw [hca, hcb]
        simp
        omega
      have hlen2 : (((0 : ℚ), 1) :: (a ++ b) : List (ℚ × ℕ)).length =
          1 + a.length + b.length := by
        simp
        omega
      rw [hzeroblock, hweights, hlen2, hcount2]
      rcases hwb : wSums (resolveTiesAux (fun v => |v|) b (some |(0 : ℚ)|)
          (0 + (1 + a.length)) res2 (0 + ((1 + a.length) ^ 3 - (1 + a.length)))).1
        with ⟨W1, W2, Z2⟩
      rw [hwb] at hnzb
      simp only at hnzb ⊢
      have hW : W1 + W2 =
          tri (0 + (1 + a.length) + b.length) - tri (0 + (1 + a.length)) :=
        hnzb.1.trans hrsb
      rw [show 0 + (1 + a.length) = 1 + a.length by omega] at hW
      refine ⟨by linarith [hW], by rw [hnzb.2]; omega⟩
    · -- head difference nonzero: by sortedness nothing in the list is zero
      have hnz : ∀ q ∈ ((pv, pw) :: rest : List (ℚ × ℕ)), q.1 ≠ 0 := by
        intro q hq
        rcases List.mem_cons.mp hq with rfl | hq2
        · exact hz
        · intro hq0
          have hrel : |pv| ≤ |q.1| := (List.pairwise_cons.mp hs).1 q hq2
          rw [hq0, abs_zero] at hrel
          exact hz (abs_eq_zero.mp (le_antisymm hrel (abs_nonneg _)))
      have hcount0 : (((pv, pw)) :: rest : List (ℚ × ℕ)).countP
          (fun p => decide (p.1 = 0)) = 0 := by
        rw [List.countP_eq_zero]
        intro q hq
        simpa using hnz q hq
      have hvals := resolveTiesAux_snd_values (fun v => |v|) ((pv, pw) :: rest)
        none 0 0 0
      have hbvals : ∀ q ∈ (resolveTiesAux (fun v => |v|) ((pv, pw) :: rest)
          none 0 0 0).1, q.2.1 ≠ 0 := by
        intro q hq
        have hq2 : q.2 ∈ ((pv, pw) :: rest : List (ℚ × ℕ)) := by
          rw [← hvals]
          exact List.mem_map_of_mem Prod.snd hq
        exact hnz q.2 hq2
      have hfr : Fresh (fun v => |v|) none ((pv, pw) :: rest) := by
        show (none : Option ℚ) ≠ some |pv|
        simp
      have hrs := rankSum_resolveTiesAux (fun v => |v|) ((pv, pw) :: rest).length
        ((pv, pw) :: rest) le_rfl hu none 0 0 0 hfr
      have hnzw := wSums_nonzero_values _ hbvals
      rw [resolveTies, hcount0]
      refine ⟨?_, by rw [hnzw.2]⟩
      rw [hnzw.1, hrs]
      simp [tri]

lemma wilcoxonDeltas_unit (x y : List ℚ) (n : ℕ) :
    UnitW (wilcoxonDeltas x y (List.replicate n 1)) := by
  intro p hp
  obtain ⟨⟨q1, q2⟩, hq, rfl⟩ := List.mem_map.mp hp
  exact List.eq_of_mem_replicate (List.of_mem_zip hq).2

lemma wilcoxonDeltas_length (x y : List ℚ) (h : x.length = y.length) :
    (wilcoxonDeltas x y (List.replicate x.length 1)).length = x.length := by
  simp [wilcoxonDeltas, h]

lemma sortByAbs_perm (l : List (ℚ × ℕ)) : (sortByAbs l).Perm l :=
  List.perm_insertionSort _ l

lemma sortByAbs_sorted (l : List (ℚ × ℕ)) :
    List.Pairwise (fun a b : ℚ × ℕ => |a.1| ≤ |b.1|) (sortByAbs l) := by
  haveI : IsTotal (ℚ × ℕ) (fun a b => |a.1| ≤ |b.1|) := ⟨fun a b => le_total _ _⟩
  haveI : IsTrans (ℚ × ℕ) (fun a b => |a.1| ≤ |b.1|) :=
    ⟨fun a b c hab hbc => le_trans hab hbc⟩
  exact List.sorted_insertionSort _ l

/-- C3, counterexample.  For `x = [1, 3]`, `y = [1, 2]` the zero
difference of the first pair lands at the front of the sort and *consumes
rank 1*, so the single nonzero difference receives rank 2:
`(W⁻, W⁺, zeroes) = (0, 2, 1)` and `W⁻ + W⁺ = 2`, while the claim's
`n_eff (n_eff + 1)/2` with `n_eff = n - zeros = 1` is `1`. -/
theorem C3_zero_rank_counterexample :
    pairedSums [1, 3] [1, 2] = (0, 2, 1) ∧
      ¬ ((0 : ℚ) + 2 = (1 : ℚ) * (1 + 1) / 2) := by
  constructor
  · norm_num [pairedSums, wSums, resolveTies, resolveTiesAux, sumOccPrefix,
      sortByAbs, wilcoxonDeltas, List.insertionSort, List.orderedInsert, reduceCtorEq]
  · norm_num

/-- C3, amended.  Zero differences do accumulate their weight into the
`zeroes` count and contribute nothing to `W⁻` and `W⁺`, but they are
*not* excluded from the rank assignment: they occupy the lowest ranks, so
for unit-weight paired input,
`W⁻ + W⁺ = n_eff (n_eff + 1)/2 + zeros · n_eff` (equivalently
`tri n - tri zeros`), not `n_eff (n_eff + 1)/2`. -/
theorem C3_zero_shift_amended (x y : List ℚ) (h : x.length = y.length) :
    (pairedSums x y).1 + (pairedSums x y).2.1 =
      ((x.length : ℚ) - ((pairedSums x y).2.2 : ℚ)) *
          (((x.length : ℚ) - ((pairedSums x y).2.2 : ℚ)) + 1) / 2 +
        ((pairedSums x y).2.2 : ℚ) * ((x.length : ℚ) - ((pairedSums x y).2.2 : ℚ)) := by
  unfold pairedSums
  have hperm := sortByAbs_perm (wilcoxonDeltas x y (List.replicate x.length 1))
  have hu : UnitW (sortByAbs (wilcoxonDeltas x y (List.replicate x.length 1))) :=
    fun p hp => wilcoxonDeltas_unit x y x.length p (hperm.mem_iff.mp hp)
  have hs := sortByAbs_sorted (wilcoxonDeltas x y (List.replicate x.length 1))
  have hmain := wSums_resolveTies_sorted _ hu hs
  have hlen : (sortByAbs (wilcoxonDeltas x y (List.replicate x.length 1))).length
      = x.length := by
    rw [hperm.length_eq, wilcoxonDeltas_length x y h]
  rw [hmain.1, hmain.2, hlen]
  unfold tri
  ring

/-- Witness for `C3_zero_shift_amended` at a concrete equal-length input. -/
theorem C3_zero_shift_amended_witness :
    (pairedSums [1, 3] [1, 2]).1 + (pairedSums [1, 3] [1, 2]).2.1 =
      ((List.length [(1 : ℚ), 3] : ℚ) - ((pairedSums [1, 3] [1, 2]).2.2 : ℚ)) *
          (((List.length [(1 : ℚ), 3] : ℚ) - ((pairedSums [1, 3] [1, 2]).2.2 : ℚ)) + 1) / 2 +
        ((pairedSums [1, 3] [1, 2]).2.2 : ℚ) *
          ((List.length [(1 : ℚ), 3] : ℚ) - ((pairedSums [1, 3] [1, 2]).2.2 : ℚ)) :=
  C3_zero_shift_amended [1, 3] [1, 2] rfl

/-- C9.  The tie resolver counts the first element of a tie group with
weight `1` instead of its occurrence weight (`count = 1 + Σ` over the
*following* tied items only).  On the single item `(5, 2)` (value 5,
occurrence weight 2) it assigns rank `1` instead of the midrank `1.5`,
so the occurrence-weighted rank sum is `2` while `K (K + 1)/2 = 3` for
`K = 2`. -/
theorem C9_weighted_rank_sum_bug :
    resolveTies id [(5, 2)] = ([(1, 5, 2)], 0) ∧
      rankSum (resolveTies id [(5, 2)]).1 = 2 ∧
      ((2 : ℚ) * (2 + 1) / 2 = 3) ∧ (2 : ℚ) ≠ 3 := by
  have h1 : resolveTies id [(5, 2)] = ([(1, 5, 2)], 0) := by
    norm_num [resolveTies, resolveTiesAux, sumOccPrefix, reduceCtorEq]
    simp
  refine ⟨h1, ?_, by norm_num, by norm_num⟩
  rw [h1]
  norm_num [rankSum]

lemma stdNormalCdf_pos (x : ℝ) : 0 < stdNormalCdf x := by
  rw [stdNormalCdf]
  rw [MeasureTheory.setIntegral_pos_iff_support_of_nonneg_ae
    (MeasureTheory.ae_of_all _ fun t => ProbabilityTheory.gaussianPDFReal_nonneg 0 1 t)
    (ProbabilityTheory.integrable_gaussianPDFReal 0 1).integrableOn]
  have hsupp : Function.support (ProbabilityTheory.gaussianPDFReal 0 1) = Set.univ := by
    ext t
    simp only [Function.mem_support, Set.mem_univ, iff_true]
    exact (ProbabilityTheory.gaussianPDFReal_pos 0 1 t one_ne_zero).ne'
  rw [hsupp, Set.univ_inter, Real.volume_Iic]
  simp

lemma stdNormalCdf_lt (a b : ℝ) (h : a < b) : stdNormalCdf a < stdNormalCdf b := by
  have hint := ProbabilityTheory.integrable_gaussianPDFReal 0 1
  have hu : Set.Iic a ∪ Set.Ioc a b = Set.Iic b := Set.Iic_union_Ioc_eq_Iic h.le
  have hdisj : Disjoint (Set.Iic a) (Set.Ioc a b) := Set.Iic_disjoint_Ioc le_rfl
  have hsplit : stdNormalCdf b = stdNormalCdf a +
      ∫ t in Set.Ioc a b, ProbabilityTheory.gaussianPDFReal 0 1 t := by
    rw [stdNormalCdf, stdNormalCdf, ← hu,
      MeasureTheory.setIntegral_union hdisj measurableSet_Ioc
        hint.integrableOn hint.integrableOn]
  have hpos : 0 < ∫ t in Set.Ioc a b, ProbabilityTheory.gaussianPDFReal 0 1 t := by
    rw [MeasureTheory.setIntegral_pos_iff_support_of_nonneg_ae
      (MeasureTheory.ae_of_all _ fun t => ProbabilityTheory.gaussianPDFReal_nonneg 0 1 t)
      hint.integrableOn]
    have hsupp : Function.support (ProbabilityTheory.gaussianPDFReal 0 1) = Set.univ := by
      ext t
      simp only [Function.mem_support, Set.mem_univ, iff_true]
      exact (ProbabilityTheory.gaussianPDFReal_pos 0 1 t one_ne_zero).ne'
    rw [hsupp, Set.univ_inter, Real.volume_Ioc]
    exact ENNReal.ofReal_pos.mpr (sub_pos.mpr h)
  linarith [hsplit, hpos]

lemma stdNormalCdf_le_one (x : ℝ) : stdNormalCdf x ≤ 1 := by
  rw [stdNormalCdf, ← ProbabilityTheory.integral_gaussianPDFReal_eq_one 0 one_ne_zero]
  exact MeasureTheory.setIntegral_le_integral
    (ProbabilityTheory.integrable_gaussianPDFReal 0 1)
    (MeasureTheory.ae_of_all _ fun t => ProbabilityTheory.gaussianPDFReal_nonneg 0 1 t)

/-- At the distribution `SignedRank::new(20, 20)` builds (mean `105`,
variance `1435/2`), the CDF at `50` strictly exceeds `2·Φ((50 - μ)/σ)`
because the code divides by the truncation scale, which lies in `(0,1)`. -/
lemma normalCdf_n20_gt :
    2 * stdNormalCdf ((50 - 105) / Real.sqrt ((1435 : ℝ) / 2)) <
      SignedRank.cdf ⟨.normal 105 (1435 / 2), 20⟩ 50 := by
  have hs : (0 : ℝ) < Real.sqrt ((1435 : ℝ) / 2) := Real.sqrt_pos.mpr (by norm_num)
  have hcdf : SignedRank.cdf ⟨.normal 105 (1435 / 2), 20⟩ 50 =
      2 * stdNormalCdf ((50 - 105) / Real.sqrt ((1435 : ℝ) / 2)) /
        (stdNormalCdf ((210 - 105) / Real.sqrt ((1435 : ℝ) / 2)) -
          stdNormalCdf ((0 - 105) / Real.sqrt ((1435 : ℝ) / 2))) := by
    show 2 * stdNormalCdf ((50 - ((105 : ℚ) : ℝ)) / Real.sqrt (((1435 / 2 : ℚ) : ℝ))) /
        (stdNormalCdf ((((20 * (20 + 1) : ℕ) : ℝ) / 2 - ((105 : ℚ) : ℝ)) /
            Real.sqrt (((1435 / 2 : ℚ) : ℝ))) -
          stdNormalCdf ((0 - ((105 : ℚ) : ℝ)) / Real.sqrt (((1435 / 2 : ℚ) : ℝ)))) = _
    norm_num
  rw [hcdf]
  have hlt : (0 - 105 : ℝ) / Real.sqrt ((1435 : ℝ) / 2) <
      (210 - 105 : ℝ) / Real.sqrt ((1435 : ℝ) / 2) :=
    (div_lt_div_iff_of_pos_right hs).mpr (by norm_num)
  have hA : 0 < stdNormalCdf ((50 - 105) / Real.sqrt ((1435 : ℝ) / 2)) :=
    stdNormalCdf_pos _
  have hscale_pos : 0 < stdNormalCdf ((210 - 105) / Real.sqrt ((1435 : ℝ) / 2)) -
      stdNormalCdf ((0 - 105) / Real.sqrt ((1435 : ℝ) / 2)) :=
    sub_pos.mpr (stdNormalCdf_lt _ _ hlt)
  have hscale_lt1 : stdNormalCdf ((210 - 105) / Real.sqrt ((1435 : ℝ) / 2)) -
      stdNormalCdf ((0 - 105) / Real.sqrt ((1435 : ℝ) / 2)) < 1 := by
    have h1 := stdNormalCdf_le_one ((210 - 105) / Real.sqrt ((1435 : ℝ) / 2))
    have h2 := stdNormalCdf_pos ((0 - 105) / Real.sqrt ((1435 : ℝ) / 2))
    linarith
  rw [lt_div_iff₀ hscale_pos]
  calc 2 * stdNormalCdf ((50 - 105) / Real.sqrt ((1435 : ℝ) / 2)) *
        (stdNormalCdf ((210 - 105) / Real.sqrt ((1435 : ℝ) / 2)) -
          stdNormalCdf ((0 - 105) / Real.sqrt ((1435 : ℝ) / 2)))
      < 2 * stdNormalCdf ((50 - 105) / Real.sqrt ((1435 : ℝ) / 2)) * 1 :=
        mul_lt_mul_of_pos_left hscale_lt1 (by linarith)
    _ = 2 * stdNormalCdf ((50 - 105) / Real.sqrt ((1435 : ℝ) / 2)) := mul_one _

/-- C2, counterexample.  The Normal-path CDF is *not* `2·Φ((w - μ)/σ)`:
the code divides by the truncation scale
`Φ((R - μ)/σ) - Φ(-μ/σ) < 1` (with `R = n (n + 1)/2`), so at the
distribution `SignedRank::new(20, 20)` builds (mean `105`, variance
`1435/2`) the value at `w = 50` is strictly larger than `2·Φ`.
Accordingly the code's own test pins `cdf(50) = 0.0400473452471253`, not
the claim's `0.04004379807046464`. -/
theorem C2_cdf_scale_counterexample :
    SignedRank.cdf ⟨.normal 105 (1435 / 2), 20⟩ 50 ≠
      2 * stdNormalCdf ((50 - 105) / Real.sqrt ((1435 : ℝ) / 2)) :=
  ne_of_gt normalCdf_n20_gt

/-- C2, amended.  `SignedRank::new(20, 20)` builds the Normal
approximation with mean `105` and variance `1435/2` (f64 standard
deviation `26.78619047195775`), and on the Normal path
`cdf(w) = 2·Φ((w - μ)/σ) / (Φ((R - μ)/σ) - Φ(-μ/σ))` with
`R = n (n + 1)/2` — strictly greater at `w = 50` than the claim's
`2·Φ((w - μ)/σ)`; the code's own test fixture pins
`cdf(50) = 0.0400473452471253`, not `0.04004379807046464`. -/
theorem C2_normal_cdf_amended :
    SignedRank.new 20 20 = some ⟨.normal 105 (1435 / 2), 20⟩ ∧
      2 * stdNormalCdf ((50 - 105) / Real.sqrt ((1435 : ℝ) / 2)) <
        SignedRank.cdf ⟨.normal 105 (1435 / 2), 20⟩ 50 := by
  refine ⟨?_, normalCdf_n20_gt⟩
  show (if 20 ≤ 20 then SignedRank.approximate 20 20 else SignedRank.exact 20) = _
  rw [if_pos le_rfl, SignedRank.approximate]
  norm_num

/-- C7, counterexample.  Empty input is not rejected by the unquantized
paths: `paired([], [])` produces an `ok` result whose p-value is `2`
(the Exact CDF at `n = 0` divides the count `1` by `2^(0-1) = 1/2`),
rather than failing with an `EmptyInput` error. -/
theorem C7_empty_input_counterexample :
    (wilcoxonPaired [] []).pValueOf = some 2 := by
  have hd : wilcoxonPaired [] [] =
      .ok (0, 0) 0 (SignedRank.cdf ⟨.exact, 0⟩ 0) := by
    unfold wilcoxonPaired weightedPaired
    norm_num [wilcoxonDeltas, sortByAbs, List.insertionSort, resolveTies,
      resolveTiesAux, wSums, SignedRank.newSpec, SignedRank.exact]
  rw [hd]
  show some (SignedRank.cdf ⟨.exact, 0⟩ 0) = some 2
  congr 1
  show ((exactCdfNum 0 (Int.toNat ⌈(0 : ℝ)⌉) : ℚ) : ℝ) / 2 ^ (((0 : ℕ) : ℤ) - 1) = 2
  have hnum : exactCdfNum 0 0 = 1 := by decide
  norm_num [hnum]

/-- C7, amended.  A length mismatch makes every paired variant *panic*
via `assert_eq!` (in all build profiles), rather than return a
`LengthMismatch` error; the unquantized paths perform no emptiness check
at all (`n = 0` yields an `ok` result with p-value `2`), and only the
quantized variants assert non-emptiness — again a panic, not an
`EmptyInput` error. -/
theorem C7_length_mismatch_amended (x y : List ℚ) (w : List ℕ)
    (h : x.length ≠ y.length) :
    weightedPaired x y w = .panic "Samples must have the same length" := by
  unfold weightedPaired
  rw [if_pos h]

/-- Witness for `C7_length_mismatch_amended` at a concrete input. -/
theorem C7_length_mismatch_amended_witness :
    List.length [(1 : ℚ)] ≠ List.length ([] : List ℚ) ∧
      weightedPaired [1] [] [] = .panic "Samples must have the same length" :=
  ⟨by simp, C7_length_mismatch_amended [1] [] [] (by simp)⟩

/-- C8, confirmed.  The pinned Exact CDF values for `n = 8`:
`cdf(4) = 0.0546875`, `cdf(3) = 0.0390625`, `cdf(2) = 0.0234375` (all
three `f64` literals are exact dyadic rationals `7/128`, `5/128`,
`3/128`). -/
theorem C8_exact_cdf_n8 :
    exactCdfQ 8 4 = 0.0546875 ∧ exactCdfQ 8 3 = 0.0390625 ∧
      exactCdfQ 8 2 = 0.0234375 := by
  have h4 : exactCdfNum 8 4 = 7 := by decide
  have h3 : exactCdfNum 8 3 = 5 := by decide
  have h2 : exactCdfNum 8 2 = 3 := by decide
  refine ⟨?_, ?_, ?_⟩
  · rw [show (4 : ℚ) = ((4 : ℕ) : ℚ) by norm_num, exactCdfQ_natCast, h4]; norm_num
  · rw [show (3 : ℚ) = ((3 : ℕ) : ℚ) by norm_num, exactCdfQ_natCast, h3]; norm_num
  · rw [show (2 : ℚ) = ((2 : ℕ) : ℚ) by norm_num, exactCdfQ_natCast, h2]; norm_num

lemma tuples_mem : ∀ (k s : ℕ), ∀ l ∈ tuples k s, l.length = k ∧ ∀ x ∈ l, 1 ≤ x ∧ x ≤ s
  | 0, s => by
    intro l hl
    simp only [tuples, List.mem_singleton] at hl
    subst hl
    simp
  | k + 1, s => by
    intro l hl
    simp only [tuples, List.mem_flatMap, List.mem_map] at hl
    obtain ⟨h, hh, t, ht, rfl⟩ := hl
    have hh1 := List.mem_range'_1.mp hh
    have iht := tuples_mem k s t ht
    refine ⟨by simp [iht.1], ?_⟩
    intro x hx
    rcases List.mem_cons.mp hx with rfl | hx2
    · omega
    · exact iht.2 x hx2

lemma countP_flatMap {α β : Type} (p : β → Bool) :
    ∀ (l : List α) (f : α → List β),
      (l.flatMap f).countP p = (l.map fun a => (f a).countP p).sum
  | [], _ => rfl
  | a :: l, f => by
    simp only [List.flatMap_cons, List.countP_append, List.map_cons, List.sum_cons,
      countP_flatMap p l f]

lemma sum_range'_cutoff (g : ℕ → ℕ) (s s' : ℕ) :
    ((List.range' 1 s).map fun h => if h ≤ s' then g h else 0).sum =
      ((List.range' 1 (min s s')).map g).sum := by
  rcases le_total s s' with h | h
  · rw [min_eq_left h]
    refine congrArg List.sum (List.map_congr_left fun x hx => ?_)
    have hx1 := List.mem_range'_1.mp hx
    rw [if_pos (by omega)]
  · rw [min_eq_right h]
    have hsplit : List.range' 1 s' ++ List.range' (1 + s') (s - s') = List.range' 1 s := by
      have happ := List.range'_append 1 s' (s - s') 1
      simp only [one_mul] at happ
      rw [happ]
      congr 1
      omega
    rw [← hsplit, List.map_append, List.sum_append]
    have h1 : ((List.range' 1 s').map fun h => if h ≤ s' then g h else 0).sum =
        ((List.range' 1 s').map g).sum := by
      refine congrArg List.sum (List.map_congr_left fun x hx => ?_)
      have hx1 := List.mem_range'_1.mp hx
      rw [if_pos (by omega)]
    have h2 : ((List.range' (1 + s') (s - s')).map fun h => if h ≤ s' then g h else 0).sum
        = 0 := by
      refine List.sum_eq_zero fun x hx => ?_
      obtain ⟨h', hh', rfl⟩ := List.mem_map.mp hx
      have hh1 := List.mem_range'_1.mp hh'
      rw [if_neg (by omega)]
    rw [h1, h2, add_zero]

/-- Restricting the alphabet: counting tuples over `{1, …, min s s'}`
equals counting tuples over `{1, …, s}` that happen to be bounded by
`s'`. -/
lemma tuples_countP_restrict (P : List ℕ → Prop) [DecidablePred P] :
    ∀ (k s s' : ℕ),
      (tuples k (min s s')).countP (fun t => decide (P t)) =
        (tuples k s).countP (fun t => decide (P t ∧ ∀ x ∈ t, x ≤ s'))
  | 0, s, s' => by
    by_cases hP : P [] <;> simp [tuples, List.countP_cons, hP]
  | k + 1, s, s' => by
    simp only [tuples]
    rw [countP_flatMap, countP_flatMap]
    have hterm : ∀ h ∈ List.range' 1 s,
        (((tuples k s).map (h :: ·)).countP fun t =>
            decide (P t ∧ ∀ x ∈ t, x ≤ s')) =
          if h ≤ s' then
            ((tuples k s).map (h :: ·)).countP fun t =>
              decide (P t ∧ ∀ x ∈ t.tail, x ≤ s')
          else 0 := by
      intro h hh
      by_cases hhs : h ≤ s'
      · rw [if_pos hhs]
        rw [List.countP_map, List.countP_map]
        refine List.countP_congr fun t ht => ?_
        simp only [Function.comp, decide_eq_true_eq, List.tail_cons]
        constructor
        · rintro ⟨hp, hall⟩
          exact ⟨hp, fun x hx => hall x (List.mem_cons_of_mem h hx)⟩
        · rintro ⟨hp, hall⟩
          refine ⟨hp, fun x hx => ?_⟩
          rcases List.mem_cons.mp hx with rfl | hx2
          · exact hhs
          · exact hall x hx2
      · rw [if_neg hhs]
        rw [List.countP_map, List.countP_eq_zero]
        intro t ht
        simp only [Function.comp, decide_eq_true_eq, not_and]
        intro _ hall
        exact hhs (hall h (List.mem_cons_self h t))
    rw [List.map_congr_left hterm]
    rw [sum_range'_cutoff (fun h => ((tuples k s).map (h :: ·)).countP fun t =>
      decide (P t ∧ ∀ x ∈ t.tail, x ≤ s')) s s']
    refine congrArg List.sum (List.map_congr_left fun h hh => ?_)
    rw [List.countP_map, List.countP_map]
    haveI : DecidablePred fun t => P (h :: t) :=
      fun t => inferInstanceAs (Decidable (P (h :: t)))
    have hih := tuples_countP_restrict (fun t => P (h :: t)) k s s'
    calc (tuples k (min s s')).countP ((fun t => decide (P t)) ∘ (h :: ·))
        = (tuples k (min s s')).countP (fun t => decide (P (h :: t))) :=
          List.countP_congr fun t _ => by simp [Function.comp]
      _ = (tuples k s).countP (fun t => decide (P (h :: t) ∧ ∀ x ∈ t, x ≤ s')) := hih
      _ = (tuples k s).countP ((fun t => decide (P t ∧ ∀ x ∈ t.tail, x ≤ s')) ∘ (h :: ·)) :=
          List.countP_congr fun t _ => by simp [Function.comp]

/-- `countM` satisfies the largest-part recurrence with subcall bound `h`
(the bound the code uses), not `h - 1`. -/
lemma countM_succ (n k s : ℕ) :
    countM n (k + 1) s =
      ((List.range' 1 (min s n)).map fun h => countM (n - h) k h).sum := by
  show (tuples (k + 1) s).countP _ = _
  rw [show tuples (k + 1) s =
    (List.range' 1 s).flatMap fun h => (tuples k s).map (h :: ·) from rfl]
  rw [countP_flatMap]
  have hterm : ∀ h ∈ List.range' 1 s,
      (((tuples k s).map (h :: ·)).countP fun l =>
          decide (l.sum = n ∧ List.Pairwise (· ≥ ·) l)) =
        if h ≤ n then countM (n - h) k h else 0 := by
    intro h hh
    have hh1 := List.mem_range'_1.mp hh
    rw [List.countP_map]
    have hstep : (tuples k s).countP
        ((fun l => decide (l.sum = n ∧ List.Pairwise (· ≥ ·) l)) ∘ (h :: ·)) =
        (tuples k s).countP (fun t =>
          decide ((h + t.sum = n ∧ List.Pairwise (· ≥ ·) t) ∧ ∀ x ∈ t, x ≤ h)) := by
      refine List.countP_congr fun t _ => ?_
      simp only [Function.comp, decide_eq_true_eq, List.sum_cons, List.pairwise_cons,
        ge_iff_le]
      constructor
      · rintro ⟨hsum, hall, hpw⟩
        exact ⟨⟨hsum, hpw⟩, hall⟩
      · rintro ⟨⟨hsum, hpw⟩, hall⟩
        exact ⟨hsum, hall, hpw⟩
    rw [hstep]
    have hres := tuples_countP_restrict
      (fun t => h + t.sum = n ∧ List.Pairwise (· ≥ ·) t) k s h
    rw [min_eq_right (by omega : h ≤ s)] at hres
    rw [← hres]
    by_cases hn : h ≤ n
    · rw [if_pos hn]
      refine List.countP_congr fun t _ => ?_
      simp only [decide_eq_true_eq]
      constructor
      · rintro ⟨hsum, hpw⟩
        exact ⟨by omega, hpw⟩
      · rintro ⟨hsum, hpw⟩
        exact ⟨by omega, hpw⟩
    · rw [if_neg hn, List.countP_eq_zero]
      intro t _
      simp only [decide_eq_true_eq, not_and]
      intro hsum
      omega
  rw [List.map_congr_left hterm]
  exact sum_range'_cutoff (fun h => countM (n - h) k h) s n

lemma countM_of_lt (m k s : ℕ) (h : m < k) : countM m k s = 0 := by
  rw [countM, List.countP_eq_zero]
  intro t ht
  have hmem := tuples_mem k s t ht
  have hsum : k ≤ t.sum := by
    rw [← hmem.1]
    exact List.length_le_sum_of_one_le t fun x hx => (hmem.2 x hx).1
  simp only [decide_eq_true_eq, not_and]
  intro hs
  omega

lemma countM_self : ∀ (k s : ℕ), 1 ≤ s → countM k k s = 1
  | 0, s, _ => by simp [countM, tuples]
  | k + 1, s, hs => by
    rw [countM_succ]
    have hmin : min s (k + 1) = (min s (k + 1) - 1) + 1 := by omega
    rw [hmin, List.range'_succ]
    simp only [List.map_cons, List.sum_cons]
    have hzero : ((List.range' (1 + 1) (min s (k + 1) - 1)).map
        fun h => countM (k + 1 - h) k h).sum = 0 := by
      refine List.sum_eq_zero fun x hx => ?_
      obtain ⟨h, hh, rfl⟩ := List.mem_map.mp hx
      have hh1 := List.mem_range'_1.mp hh
      exact countM_of_lt _ _ _ (by omega)
    rw [hzero]
    simpa using countM_self k 1 le_rfl

/-- C5, counterexample.  `partitions(7, 3, 5) = 4` (the spec's own pinned
value), but the number of ways to write `7` as a sum of exactly `3`
*distinct* positive integers each ≤ `5` is `1` (only `{1, 2, 4}`): the
function does not count distinct-part partitions. -/
theorem C5_distinct_counterexample :
    partitions 7 3 5 = 4 ∧ countDistinct 7 3 5 = 1 ∧ (4 : ℕ) ≠ 1 := by
  refine ⟨by decide, by decide, by decide⟩

/-- C5, amended.  For `size ≥ 1`, `partitions(number, parts, size)`
counts the ways to write `number` as a sum of exactly `parts` positive
integers each ≤ `size` that are *not necessarily distinct*; its
recurrence passes the chosen highest part `h` itself as the subcall
bound, `partitions(number - h, parts - 1, h)`, not `h - 1`.  The stated
base cases are as claimed. -/
theorem C5_partitions_semantics_amended :
    ∀ (number parts size : ℕ), 1 ≤ size →
      partitions number parts size = countM number parts size := by
  intro number
  induction number using Nat.strong_induction_on with
  | _ n ih =>
    intro k s hs
    rw [partitions_eq]
    rcases eq_or_ne n k with rfl | hnk
    · rw [if_pos rfl, countM_self n s hs]
    · rw [if_neg hnk]
      rcases eq_or_ne n 0 with rfl | hn0
      · rw [if_pos (Or.inl rfl)]
        have hk : 0 < k := Nat.pos_of_ne_zero fun h => hnk h.symm
        exact (countM_of_lt 0 k s hk).symm
      · rcases eq_or_ne k 0 with rfl | hk0
        · rw [if_pos (Or.inr (Or.inl rfl))]
          symm
          rw [countM, List.countP_eq_zero]
          intro t ht
          simp only [tuples, List.mem_singleton] at ht
          subst ht
          simp only [List.sum_nil, decide_eq_true_eq, not_and]
          intro h
          exact absurd h.symm hn0
        · rw [if_neg (by push_neg; exact ⟨hn0, hk0, by omega⟩)]
          obtain ⟨k', rfl⟩ : ∃ k', k = k' + 1 := ⟨k - 1, by omega⟩
          rw [countM_succ, Nat.min_comm s n]
          refine congrArg List.sum (List.map_congr_left fun h hh => ?_)
          have hh1 := List.mem_range'_1.mp hh
          exact ih (n - h) (by omega) k' h (by omega)

/-- Witness for `C5_partitions_semantics_amended` at the pinned input. -/
theorem C5_partitions_semantics_amended_witness :
    1 ≤ 5 ∧ partitions 7 3 5 = countM 7 3 5 :=
  ⟨by norm_num, C5_partitions_semantics_amended 7 3 5 (by norm_num)⟩

/-! ## Termination of `partitions` (C10) -/

/-- C10, confirmed.  Every recursive call of `partitions` strictly
decreases `number` (the chosen highest part is at least 1), so the
recursion depth is bounded by `number`: any fuel of at least
`number + 1` computes the fixed point, making the function — and hence
the exact CDF evaluation — total. -/
theorem C10_partitions_total (fuel number parts size : ℕ)
    (h : number + 1 ≤ fuel) :
    partitionsF fuel number parts size = partitions number parts size :=
  partitionsF_congr fuel (number + 1) number parts size (by omega) (by omega)

/-- Witness for `C10_partitions_total` at the pinned input. -/
theorem C10_partitions_total_witness :
    7 + 1 ≤ 9 ∧ partitionsF 9 7 3 5 = partitions 7 3 5 :=
  ⟨by norm_num, C10_partitions_total 9 7 3 5 (by norm_num)⟩

/-- C6.  On the repo's own quantized test input S1, the batch maximum is
`3`, but the factor handed to `quantize` is the reciprocal `1/3`; since
`quantize` *divides* by its factor, the difference `6 - 9 = -3` is
mapped to `-3 / (1/3) · 127 = -1143`, which saturates to `-128` —
outside `[i8::LOWER_BOUND, i8::UPPER_BOUND] = [-127, 127]` (and in
violation of `quantize`'s own `|v| ≤ factor` debug assertion). -/
theorem C6_reciprocal_factor_bug :
    maxAbsDelta [8, 6, 5.5, 11, 8.5, 5, 6, 6] [8.5, 9, 6.5, 10.5, 9, 7, 6.5, 7] = 3 ∧
      quantizedFactor [8, 6, 5.5, 11, 8.5, 5, 6, 6] [8.5, 9, 6.5, 10.5, 9, 7, 6.5, 7]
        = 1 / 3 ∧
      (1 / 3 : ℚ) ≠ 3 ∧
      quantizeI8 (6 - 9) (1 / 3) = -128 ∧
      ¬ (-127 : ℤ) ≤ -128 ∧
      ¬ |(6 - 9 : ℚ)| ≤ 1 / 3 := by
  have hmax : maxAbsDelta [8, 6, 5.5, 11, 8.5, 5, 6, 6]
      [8.5, 9, 6.5, 10.5, 9, 7, 6.5, 7] = 3 := by
    norm_num [maxAbsDelta, abs_of_nonneg, abs_of_nonpos]
  have hq : quantizeI8 (6 - 9) (1 / 3) = -128 := by
    unfold quantizeI8 satCastI8 ratTrunc
    rw [if_neg (by norm_num : ¬ (6 - 9 : ℚ) = 0)]
    rw [show (6 - 9 : ℚ) / (1 / 3) * 127 = ((-1143 : ℤ) : ℚ) by norm_num]
    rw [if_neg (by norm_num : ¬ (0 : ℚ) ≤ ((-1143 : ℤ) : ℚ)), Int.ceil_intCast]
    decide
  refine ⟨hmax, ?_, by norm_num, hq, by norm_num, by norm_num⟩
  rw [quantizedFactor, hmax]

end Stattest
